import Mathlib

/-!
Shallow embedding of the intake-and-relay engine of `src/smtp-server.ts`
(tinkses).  JavaScript strings are modelled as `List Char`; JS objects used
as string-keyed records are modelled as association lists together with an
explicit model of JS own-property-key enumeration order (canonical array
indices first, ascending, then remaining keys in insertion order).
-/

namespace TinkSES

/-- JS string model. -/
abbrev JStr := List Char

/-- `s.split(sep)` for a single-character separator, as in JS:
`"".split(c) = [""]`, `"a@b@c".split("@") = ["a","b","c"]`. -/
def splitOnChar (sep : Char) : JStr → List JStr
  | [] => [[]]
  | c :: cs =>
    let r := splitOnChar sep cs
    if c = sep then [] :: r else (c :: r.headD []) :: r.tail

theorem splitOnChar_ne_nil (sep : Char) (l : JStr) : splitOnChar sep l ≠ [] := by
  cases l with
  | nil => simp [splitOnChar]
  | cons c cs =>
    simp only [splitOnChar]
    by_cases h : c = sep <;> simp [h]

theorem splitOnChar_no_sep {sep : Char} {l : JStr} (h : sep ∉ l) :
    splitOnChar sep l = [l] := by
  induction l with
  | nil => rfl
  | cons c cs ih =>
    simp only [List.mem_cons, not_or] at h
    have hc : ¬ c = sep := fun hh => h.1 hh.symm
    simp [splitOnChar, hc, ih h.2]

theorem splitOnChar_append_sep (sep : Char) (l₁ l₂ : JStr) :
    splitOnChar sep (l₁ ++ sep :: l₂) = splitOnChar sep l₁ ++ splitOnChar sep l₂ := by
  induction l₁ with
  | nil => simp [splitOnChar]
  | cons c cs ih =>
    by_cases h : c = sep
    · simp [splitOnChar, h, ih]
    · simp only [List.cons_append, splitOnChar, h, if_false]
      cases hs : splitOnChar sep cs with
      | nil => exact absurd hs (splitOnChar_ne_nil sep cs)
      | cons r rs => simp [ih, hs]

/-- The JS expression `address.split('@')[1]`: the second `@`-separated
segment when it exists, `undefined` (modelled as `none`) otherwise. -/
def splitAtSecond (addr : JStr) : Option JStr :=
  (splitOnChar '@' addr).get? 1

/-- Domain key used by the recipient grouper (`recipient.address.split('@')[1]`
used as a JS object key): when the split yields no second segment the JS value
is `undefined`, which as a property key is coerced to the string
`"undefined"`. -/
def recipientDomain (addr : JStr) : JStr :=
  match splitAtSecond addr with
  | some d => d
  | none => 'u' :: 'n' :: 'd' :: 'e' :: 'f' :: 'i' :: 'n' :: 'e' :: 'd' :: []

/-- Sender validation in `onMailFrom`: `const [, domain] = address.split('@')`
then reject unless `domain === config.domain`.  Accepts iff the second
`@`-separated segment equals the configured domain. -/
def validateSender (cfgDomain : JStr) (addr : JStr) : Bool :=
  splitAtSecond addr = some cfgDomain

/-! ### Address list parsing (model of the external `addressparser`)

`nodemailer/lib/addressparser` is an external collaborator; on the plain
comma-separated address strings this server builds, it splits on commas,
trims surrounding whitespace and drops empty entries. -/

/-- Remove leading and trailing spaces. -/
def trimSpaces (l : JStr) : JStr :=
  ((l.dropWhile (· = ' ')).reverse.dropWhile (· = ' ')).reverse

/-- Model of `addressparser(s)` restricted to the address part of each entry. -/
def parseAddresses (s : JStr) : List JStr :=
  ((splitOnChar ',' s).map trimSpaces).filter (fun a => !a.isEmpty)

/-- JS `array.join(', ')`. -/
def joinCommaSpace : List JStr → JStr
  | [] => []
  | [a] => a
  | a :: rest => a ++ ',' :: ' ' :: joinCommaSpace rest

/-! ### Recipient grouping (`recipientGroups` in `onData`)

A JS object used as a string-keyed record is modelled as an association
list in property-insertion order. -/

abbrev Groups := List (JStr × List JStr)

/-- `recipientGroups[k].push(r)`, creating `recipientGroups[k] = []` first
when the key is absent (new keys are appended, as in JS objects). -/
def pushIntoGroup : Groups → JStr → JStr → Groups
  | [], k, r => [(k, [r])]
  | (k', g) :: gs, k, r =>
    if k' = k then (k', g ++ [r]) :: gs else (k', g) :: pushIntoGroup gs k r

/-- The grouping loop of `onData`: one pass over the recipients, keying each
by `recipient.address.split('@')[1]`. -/
def recipientGroups (rs : List JStr) : Groups :=
  rs.foldl (fun gs r => pushIntoGroup gs (recipientDomain r) r) []

/-- Key lookup in the association-list record model. -/
def lookupG : Groups → JStr → Option (List JStr)
  | [], _ => none
  | (k', g) :: gs, k => if k' = k then some g else lookupG gs k

/-- First occurrences of a list, skipping an initial `seen` set. -/
def firstSeenAux {α : Type} [DecidableEq α] (seen : List α) : List α → List α
  | [] => []
  | a :: l => if a ∈ seen then firstSeenAux seen l else a :: firstSeenAux (a :: seen) l

/-- The elements of a list in first-occurrence order, deduplicated. -/
def firstSeen {α : Type} [DecidableEq α] (l : List α) : List α := firstSeenAux [] l

theorem firstSeenAux_congr {α : Type} [DecidableEq α] (l : List α) :
    ∀ s₁ s₂ : List α, (∀ a, a ∈ s₁ ↔ a ∈ s₂) → firstSeenAux s₁ l = firstSeenAux s₂ l := by
  induction l with
  | nil => intro s₁ s₂ _; rfl
  | cons a l ih =>
    intro s₁ s₂ h
    simp only [firstSeenAux]
    by_cases ha : a ∈ s₁
    · rw [if_pos ha, if_pos ((h a).mp ha)]
      exact ih s₁ s₂ h
    · rw [if_neg ha, if_neg (fun hh => ha ((h a).mpr hh))]
      refine congrArg _ (ih _ _ fun b => ?_)
      simp only [List.mem_cons, h b]

theorem mem_firstSeenAux {α : Type} [DecidableEq α] (l : List α) :
    ∀ (seen : List α) (a : α), a ∈ firstSeenAux seen l ↔ a ∈ l ∧ a ∉ seen := by
  induction l with
  | nil => simp [firstSeenAux]
  | cons b l ih =>
    intro seen a
    simp only [firstSeenAux]
    by_cases hb : b ∈ seen
    · rw [if_pos hb, ih]
      constructor
      · exact fun ⟨h1, h2⟩ => ⟨List.mem_cons_of_mem b h1, h2⟩
      · rintro ⟨h1, h2⟩
        rcases List.mem_cons.mp h1 with rfl | h1
        · exact absurd hb h2
        · exact ⟨h1, h2⟩
    · rw [if_neg hb]
      simp only [List.mem_cons, ih]
      constructor
      · rintro (rfl | ⟨h1, h2⟩)
        · exact ⟨Or.inl rfl, hb⟩
        · exact ⟨Or.inr h1, fun hh => h2 (Or.inr hh)⟩
      · rintro ⟨rfl | h1, h2⟩
        · exact Or.inl rfl
        · by_cases hab : a = b
          · exact Or.inl hab
          · exact Or.inr ⟨h1, fun hh => hh.elim hab h2⟩

theorem nodup_firstSeenAux {α : Type} [DecidableEq α] (l : List α) :
    ∀ seen : List α, (firstSeenAux seen l).Nodup := by
  induction l with
  | nil => intro _; simp [firstSeenAux]
  | cons a l ih =>
    intro seen
    simp only [firstSeenAux]
    by_cases ha : a ∈ seen
    · rw [if_pos ha]; exact ih seen
    · rw [if_neg ha]
      refine List.nodup_cons.mpr ⟨?_, ih _⟩
      intro hmem
      exact ((mem_firstSeenAux l _ a).mp hmem).2 (List.mem_cons_self a seen)

theorem mapFst_pushIntoGroup (gs : Groups) (k r : JStr) :
    (pushIntoGroup gs k r).map Prod.fst =
      if k ∈ gs.map Prod.fst then gs.map Prod.fst else gs.map Prod.fst ++ [k] := by
  induction gs with
  | nil => simp [pushIntoGroup]
  | cons p gs ih =>
    obtain ⟨k', g⟩ := p
    by_cases h : k' = k
    · simp [pushIntoGroup, h]
    · simp only [pushIntoGroup, if_neg h, List.map_cons, ih]
      have hne : ¬ k = k' := fun hh => h hh.symm
      by_cases hmem : k ∈ gs.map Prod.fst <;>
        simp [List.mem_cons, hne, hmem]

theorem lookupG_pushIntoGroup (gs : Groups) (k r k₂ : JStr) :
    lookupG (pushIntoGroup gs k r) k₂ =
      if k₂ = k then some ((lookupG gs k).getD [] ++ [r]) else lookupG gs k₂ := by
  induction gs with
  | nil =>
    by_cases h : k₂ = k
    · simp [pushIntoGroup, lookupG, h]
    · simp [pushIntoGroup, lookupG, h, Ne.symm h]
  | cons p gs ih =>
    obtain ⟨k', g⟩ := p
    by_cases h : k' = k
    · subst h
      by_cases h2 : k₂ = k'
      · simp [pushIntoGroup, lookupG, h2]
      · simp [pushIntoGroup, lookupG, h2, Ne.symm h2]
    · by_cases h2 : k' = k₂
      · subst h2
        simp [pushIntoGroup, if_neg h, lookupG, h]
      · simp only [pushIntoGroup, if_neg h, lookupG, if_neg h2, ih]

theorem lookupG_eq_none_iff (gs : Groups) (k : JStr) :
    lookupG gs k = none ↔ k ∉ gs.map Prod.fst := by
  induction gs with
  | nil => simp [lookupG]
  | cons p gs ih =>
    obtain ⟨k', g⟩ := p
    by_cases h : k' = k
    · simp [lookupG, h]
    · simp [lookupG, h, ih, Ne.symm h]

/-- The grouping loop builds keys in first-seen order (on top of any keys the
accumulator already holds). -/
theorem mapFst_foldGroups (rs : List JStr) :
    ∀ gs : Groups,
      ((rs.foldl (fun gs r => pushIntoGroup gs (recipientDomain r) r) gs).map Prod.fst) =
        gs.map Prod.fst ++ firstSeenAux (gs.map Prod.fst) (rs.map recipientDomain) := by
  induction rs with
  | nil => intro gs; simp [firstSeenAux]
  | cons r rs ih =>
    intro gs
    simp only [List.foldl_cons, List.map_cons, firstSeenAux]
    rw [ih]
    rw [mapFst_pushIntoGroup]
    by_cases h : recipientDomain r ∈ gs.map Prod.fst
    · rw [if_pos h, if_pos h]
    · rw [if_neg h, if_neg h, List.append_assoc, List.singleton_append]
      refine congrArg _ (congrArg _ ?_)
      refine firstSeenAux_congr _ _ _ fun a => ?_
      simp only [List.mem_append, List.mem_singleton, List.mem_cons]
      tauto

theorem lookupG_foldGroups (rs : List JStr) :
    ∀ (gs : Groups) (k : JStr),
      lookupG (rs.foldl (fun gs r => pushIntoGroup gs (recipientDomain r) r) gs) k =
        match lookupG gs k with
        | some g => some (g ++ rs.filter (fun r => recipientDomain r = k))
        | none =>
          if k ∈ rs.map recipientDomain then
            some (rs.filter (fun r => recipientDomain r = k))
          else none := by
  induction rs with
  | nil =>
    intro gs k
    cases h : lookupG gs k <;> simp [h]
  | cons r rs ih =>
    intro gs k
    simp only [List.foldl_cons]
    rw [ih]
    rw [lookupG_pushIntoGroup]
    by_cases hk : k = recipientDomain r
    · subst hk
      have hfil : (r :: rs).filter (fun x => recipientDomain x = recipientDomain r) =
          r :: rs.filter (fun x => recipientDomain x = recipientDomain r) := by
        simp [List.filter_cons]
      cases h : lookupG gs (recipientDomain r) with
      | some g => simp [h, hfil]
      | none => simp [h, hfil]
    · have hrk : ¬ recipientDomain r = k := fun hh => hk hh.symm
      have hfil : (r :: rs).filter (fun x => recipientDomain x = k) =
          rs.filter (fun x => recipientDomain x = k) := by
        simp [List.filter_cons, hrk]
      rw [if_neg hk]
      cases h : lookupG gs k with
      | some g => simp [h, hfil]
      | none =>
        simp only [h, hfil, List.map_cons, List.mem_cons]
        by_cases hmem : k ∈ rs.map recipientDomain <;>
          simp [hmem, hk, hrk]

theorem groups_eq_of_keys_lookup :
    ∀ (gs : Groups) (K : List JStr) (F : JStr → List JStr),
      gs.map Prod.fst = K → (∀ k ∈ K, lookupG gs k = some (F k)) → K.Nodup →
      gs = K.map (fun k => (k, F k)) := by
  intro gs
  induction gs with
  | nil =>
    intro K F hK _ _
    simp only [List.map_nil] at hK
    rw [← hK]
    rfl
  | cons p gs ih =>
    intro K F hK hlook hnd
    obtain ⟨k₀, g₀⟩ := p
    cases K with
    | nil => simp at hK
    | cons k₁ K' =>
      simp only [List.map_cons, List.cons.injEq] at hK
      obtain ⟨hk01, hrest⟩ := hK
      subst hk01
      have hnd' := List.nodup_cons.mp hnd
      have hg0 : g₀ = F k₀ := by
        have := hlook k₀ (List.mem_cons_self _ _)
        simp [lookupG] at this
        exact this
      have hlook' : ∀ k ∈ K', lookupG gs k = some (F k) := by
        intro k hk
        have hne : ¬ k₀ = k := fun hh => hnd'.1 (hh ▸ hk)
        have := hlook k (List.mem_cons_of_mem _ hk)
        simpa [lookupG, hne] using this
      simp only [List.map_cons, List.cons.injEq]
      exact ⟨by rw [hg0], ih K' F hrest hlook' hnd'.2⟩

/-- Keys of the recipient grouper, in insertion order: the distinct domain
keys in first-seen recipient order. -/
theorem recipientGroups_keys (rs : List JStr) :
    (recipientGroups rs).map Prod.fst = firstSeen (rs.map recipientDomain) := by
  have := mapFst_foldGroups rs []
  simpa [recipientGroups, firstSeen] using this

theorem recipientGroups_lookup (rs : List JStr) (k : JStr) :
    lookupG (recipientGroups rs) k =
      if k ∈ rs.map recipientDomain then
        some (rs.filter (fun r => recipientDomain r = k))
      else none := by
  have := lookupG_foldGroups rs [] k
  simpa [recipientGroups, lookupG] using this

/-- Canonical form of the grouping loop's output: the record holds, for each
domain key in first-seen order, exactly the input recipients with that key,
in input order. -/
theorem recipientGroups_canonical (rs : List JStr) :
    recipientGroups rs =
      (firstSeen (rs.map recipientDomain)).map
        (fun k => (k, rs.filter (fun r => recipientDomain r = k))) := by
  refine groups_eq_of_keys_lookup _ _ _ (recipientGroups_keys rs) ?_
    (nodup_firstSeenAux _ _)
  intro k hk
  have hmem : k ∈ rs.map recipientDomain :=
    ((mem_firstSeenAux _ _ _).mp hk).1
  rw [recipientGroups_lookup, if_pos hmem]

theorem mem_recipientGroups_iff (rs : List JStr) (k : JStr) (g : List JStr) :
    (k, g) ∈ recipientGroups rs ↔
      k ∈ rs.map recipientDomain ∧ g = rs.filter (fun r => recipientDomain r = k) := by
  rw [recipientGroups_canonical]
  constructor
  · intro h
    obtain ⟨k', hk', heq⟩ := List.mem_map.mp h
    have h1 : k' = k := congrArg Prod.fst heq
    subst h1
    have h2 : rs.filter (fun r => recipientDomain r = k') = g := congrArg Prod.snd heq
    exact ⟨((mem_firstSeenAux _ _ _).mp hk').1, h2.symm⟩
  · rintro ⟨hmem, rfl⟩
    exact List.mem_map.mpr ⟨k, (mem_firstSeenAux _ _ _).mpr ⟨hmem, by simp⟩, rfl⟩

/-- A recipient is delivered to (i.e. appears in some group) iff it is in the
input recipient list. -/
theorem mem_some_group_iff (rs : List JStr) (x : JStr) :
    (∃ kg ∈ recipientGroups rs, x ∈ kg.2) ↔ x ∈ rs := by
  constructor
  · rintro ⟨⟨k, g⟩, hmem, hx⟩
    have := (mem_recipientGroups_iff rs k g).mp hmem
    rw [this.2] at hx
    exact List.mem_of_mem_filter hx
  · intro hx
    refine ⟨(recipientDomain x, rs.filter (fun r => recipientDomain r = recipientDomain x)),
      ?_, ?_⟩
    · exact (mem_recipientGroups_iff rs _ _).mpr ⟨List.mem_map_of_mem _ hx, rfl⟩
    · simp [List.mem_filter, hx]

/-! ### Route resolution and the per-domain delivery attempt -/

/-- One MX record as returned by `dns.resolveMx`. -/
structure MxRecord where
  exchange : JStr
  priority : Nat
deriving DecidableEq

/-- `mx.sort((a, b) => a.priority - b.priority)`: the ES2019 `Array.sort`
contract is a stable ascending sort for this comparator; insertion sort with
`≤` on priorities computes exactly that. -/
def sortMx (l : List MxRecord) : List MxRecord :=
  l.insertionSort (fun a b => a.priority ≤ b.priority)

instance : IsTotal MxRecord (fun a b => a.priority ≤ b.priority) :=
  ⟨fun a b => Nat.le_total a.priority b.priority⟩

instance : IsTrans MxRecord (fun a b => a.priority ≤ b.priority) :=
  ⟨fun _ _ _ => Nat.le_trans⟩

/-- `await promisify(dns.resolveMx)(domain).catch(() => [{priority: 0,
exchange: domain}])` followed by the sort: on any lookup rejection the single
synthetic direct-to-domain target, otherwise the stable ascending sort of the
response. -/
def resolveTargets (domain : JStr) : Except Unit (List MxRecord) → List MxRecord
  | .error _ => [⟨domain, 0⟩]
  | .ok l => sortMx l

/-- External outcomes one destination domain can offer: the result of the MX
lookup promise, and the result of the transport submission as a function of
the host connected to. -/
structure DomainEnv where
  mxResult : Except Unit (List MxRecord)
  send : JStr → Except JStr Unit

/-- Message of the TypeError thrown by `priorityMx.exchange` when the sorted
MX list is empty (`mx.sort(...)[0]` is `undefined`). -/
def undefinedReadMsg : JStr :=
  "TypeError: cannot read exchange of undefined".toList

/-- The body of the per-domain `try` block: take the first sorted target,
connect the transport to its host and submit; any rejection is surfaced as
the thrown error. -/
def attemptDomain (domain : JStr) (env : DomainEnv) : Except JStr Unit :=
  match (resolveTargets domain env.mxResult).head? with
  | none => .error undefinedReadMsg
  | some t => env.send t.exchange

/-- `results` accumulated by the delivery loop. -/
structure DeliveryResults where
  success : List JStr
  failed : List (JStr × JStr)
deriving DecidableEq

/-- The sequential `for (const domain in recipientGroups)` loop with its
per-domain `try`/`catch`: a success pushes the domain, a caught error pushes
the domain with the error message, and iteration always continues. -/
def relayLoop (attempt : JStr → Except JStr Unit) : List JStr → DeliveryResults
  | [] => ⟨[], []⟩
  | d :: ds =>
    let rest := relayLoop attempt ds
    match attempt d with
    | .ok _ => ⟨d :: rest.success, rest.failed⟩
    | .error e => ⟨rest.success, (d, e) :: rest.failed⟩

/-- Numeric value of a digit string (JS array-index interpretation). -/
def toNatFold (s : JStr) : Nat :=
  s.foldl (fun n c => n * 10 + (c.toNat - 48)) 0

/-- Whether a JS property key is a canonical array index (all digits, no
leading zero except `"0"` itself, value below `2^32 - 1`). -/
def isArrayIndex (s : JStr) : Bool :=
  !s.isEmpty && s.all (fun c => c.isDigit) &&
    (decide (s = ['0']) || decide (s.headD ' ' ≠ '0')) &&
    decide (toNatFold s < 4294967295)

/-- JS own-property-key enumeration order (used by `for ... in` and
`Object.keys`): canonical array indices first in ascending numeric order,
then the remaining string keys in insertion order. -/
def jsOwnKeys (ks : List JStr) : List JStr :=
  (ks.filter isArrayIndex).insertionSort (fun a b => toNatFold a ≤ toNatFold b) ++
    ks.filter (fun k => !isArrayIndex k)

/-- The sequence of domains the delivery loop visits for a recipient list. -/
def relayKeys (rs : List JStr) : List JStr :=
  jsOwnKeys ((recipientGroups rs).map Prod.fst)

/-- One relay-orchestrator invocation over an already-parsed recipient list:
group by domain, then run the delivery loop in object-key enumeration
order. -/
def runRelay (world : JStr → DomainEnv) (rs : List JStr) : DeliveryResults :=
  relayLoop (fun d => attemptDomain d (world d)) (relayKeys rs)

/-! ### Terminal SMTP response -/

/-- Decimal rendering used in the response strings. -/
def natChars (n : Nat) : JStr := Nat.toDigits 10 n

def partialMsg (s f : Nat) : JStr :=
  "Partial delivery: ".toList ++ natChars s ++ " succeeded, ".toList ++
    natChars f ++ " failed".toList

def totalFailMsg (f : Nat) : JStr :=
  "Delivery failed to all ".toList ++ natChars f ++ " domains".toList

/-- Lines 269–289 of `smtp-server.ts`: `none` is the accepting `callback()`,
`some msg` is `callback(new Error(msg))`. -/
def sessionResponse (r : DeliveryResults) : Option JStr :=
  if r.failed.length > 0 then
    if r.success.length > 0 then some (partialMsg r.success.length r.failed.length)
    else some (totalFailMsg r.failed.length)
  else none

/-- Terminal response of one completed relay. -/
def terminalResponse (world : JStr → DomainEnv) (rs : List JStr) : Option JStr :=
  sessionResponse (runRelay world rs)

/-! ### Envelope handling (`onData` preamble) -/

/-- The shapes of `parsedMail` this flow inspects: only the truthiness of the
`to`/`cc`/`bcc` address headers matters to the recipient list, since
mailparser produces `AddressObject`s (never strings), so the
`typeof ... === 'string'` branches of lines 174–177 are statically dead. -/
structure ParsedMail where
  toHdr : Option (List JStr)
  ccHdr : Option (List JStr)
  bccHdr : Option (List JStr)

/-- `session.envelope.mailFrom ? session.envelope.mailFrom.address :
'unknown'`. -/
def envelopeFrom (mailFrom : Option JStr) : JStr :=
  match mailFrom with
  | some a => a
  | none => "unknown".toList

/-- Lines 172–179: the recipient list is re-parsed from a string built from
the envelope `to` (and, when `cc`/`bcc` headers are present, another copy of
the envelope `to` resp. an empty segment). -/
def recipientsOf (envRcpt : List JStr) (pm : ParsedMail) : List JStr :=
  let toStr := joinCommaSpace envRcpt
  parseAddresses
    (toStr ++ (if pm.ccHdr.isSome then ',' :: toStr else []) ++
      (if pm.bccHdr.isSome then [','] else []))

/-! ### Characterisations of the relay loop and the sort -/

/-- Whether an `Except` is a success. -/
def exOk {ε α : Type} : Except ε α → Bool
  | .ok _ => true
  | .error _ => false

theorem relayLoop_success (attempt : JStr → Except JStr Unit) (ks : List JStr) :
    (relayLoop attempt ks).success = ks.filter (fun d => exOk (attempt d)) := by
  induction ks with
  | nil => rfl
  | cons d ds ih =>
    cases h : attempt d with
    | ok v => simp [relayLoop, h, List.filter_cons, exOk, ih]
    | error e => simp [relayLoop, h, List.filter_cons, exOk, ih]

theorem relayLoop_failed (attempt : JStr → Except JStr Unit) (ks : List JStr) :
    (relayLoop attempt ks).failed =
      ks.filterMap (fun d =>
        match attempt d with
        | .error e => some (d, e)
        | .ok _ => none) := by
  induction ks with
  | nil => rfl
  | cons d ds ih =>
    cases h : attempt d with
    | ok v => simp [relayLoop, h, List.filterMap_cons, ih]
    | error e => simp [relayLoop, h, List.filterMap_cons, ih]

/-- The sort used by the route resolver is ascending in priority. -/
theorem sortMx_sorted (l : List MxRecord) :
    (sortMx l).Pairwise (fun a b => a.priority ≤ b.priority) :=
  List.sorted_insertionSort _ l

/-- Stability of the sort: for each priority value the records with that
priority appear exactly as in the DNS response. -/
theorem sortMx_filter (l : List MxRecord) (p : Nat) :
    (sortMx l).filter (fun m => m.priority = p) =
      l.filter (fun m => m.priority = p) := by
  induction l with
  | nil => rfl
  | cons a l ih =>
    have hstep : sortMx (a :: l) =
        ((sortMx l).takeWhile fun b => ¬ a.priority ≤ b.priority) ++
          a :: ((sortMx l).dropWhile fun b => ¬ a.priority ≤ b.priority) :=
      List.insertionSort_cons_eq_take_drop _ a l
    rw [hstep, List.filter_append]
    by_cases hp : a.priority = p
    · have htake :
          (((sortMx l).takeWhile fun b => ¬ a.priority ≤ b.priority).filter
            (fun m => m.priority = p)) = [] := by
        rw [List.filter_eq_nil_iff]
        intro b hb
        have hblt := List.mem_takeWhile_imp hb
        simp only [decide_eq_true_eq] at hblt ⊢
        intro hbp
        exact hblt (by rw [hp, hbp])
      have hdrop :
          (((sortMx l).dropWhile fun b => ¬ a.priority ≤ b.priority).filter
              (fun m => m.priority = p)) =
            (sortMx l).filter (fun m => m.priority = p) := by
        conv_rhs =>
          rw [← List.takeWhile_append_dropWhile
            (fun b => decide (¬ a.priority ≤ b.priority)) (sortMx l)]
        rw [List.filter_append, htake, List.nil_append]
      rw [htake, List.nil_append, List.filter_cons, List.filter_cons, hdrop, ih]
    · have hpa : ¬ ((fun m : MxRecord => decide (m.priority = p)) a = true) := by
        simp [hp]
      rw [List.filter_cons, List.filter_cons, if_neg hpa, if_neg hpa,
        ← List.filter_append, List.takeWhile_append_dropWhile, ih]

theorem filter_not_filter_perm {α : Type} (p : α → Bool) (l : List α) :
    List.Perm (l.filter p ++ l.filter (fun a => !p a)) l := by
  induction l with
  | nil => simp
  | cons a l ih =>
    by_cases h : p a
    · simp [List.filter_cons, h]
      exact ih
    · have hb : p a = false := Bool.eq_false_iff.mpr h
      refine List.Perm.trans ?_ (ih.cons a)
      simp [List.filter_cons, hb]

/-- Enumeration order is a permutation of insertion order. -/
theorem jsOwnKeys_perm (ks : List JStr) : List.Perm (jsOwnKeys ks) ks :=
  ((List.perm_insertionSort _ _).append_right _).trans (filter_not_filter_perm _ ks)

theorem mem_relayKeys (rs : List JStr) (d : JStr) :
    d ∈ relayKeys rs ↔ d ∈ (recipientGroups rs).map Prod.fst :=
  (jsOwnKeys_perm _).mem_iff

theorem relayKeys_nodup (rs : List JStr) : (relayKeys rs).Nodup :=
  (jsOwnKeys_perm _).nodup_iff.mpr (by
    rw [recipientGroups_keys]
    exact nodup_firstSeenAux _ _)

/-! ### Round-trip of the envelope recipient string -/

theorem trimSpaces_cons_space (l : JStr) : trimSpaces (' ' :: l) = trimSpaces l := by
  simp [trimSpaces, List.dropWhile_cons]

theorem parseAddresses_single {a : JStr} (h1 : ',' ∉ a) (h2 : trimSpaces a = a)
    (h3 : a ≠ []) : parseAddresses a = [a] := by
  unfold parseAddresses
  rw [splitOnChar_no_sep h1]
  simp [h2, h3]

theorem parseAddresses_append_comma (s t : JStr) :
    parseAddresses (s ++ ',' :: t) = parseAddresses s ++ parseAddresses t := by
  unfold parseAddresses
  rw [splitOnChar_append_sep, List.map_append, List.filter_append]

theorem parseAddresses_nil : parseAddresses [] = [] := rfl

theorem parseAddresses_append_comma_nil (s : JStr) :
    parseAddresses (s ++ [',']) = parseAddresses s := by
  have h := parseAddresses_append_comma s []
  rw [parseAddresses_nil, List.append_nil] at h
  exact h

theorem parseAddresses_cons_space (t : JStr) :
    parseAddresses (' ' :: t) = parseAddresses t := by
  unfold parseAddresses
  cases hs : splitOnChar ',' t with
  | nil => exact absurd hs (splitOnChar_ne_nil ',' t)
  | cons r rs =>
    have hsp : splitOnChar ',' (' ' :: t) = (' ' :: r) :: rs := by
      simp [splitOnChar, hs]
    rw [hsp]
    simp [trimSpaces_cons_space]

/-- `addressparser` inverts `join(', ')` on clean addresses. -/
theorem parseAddresses_join (l : List JStr)
    (h : ∀ a ∈ l, ',' ∉ a ∧ trimSpaces a = a ∧ a ≠ []) :
    parseAddresses (joinCommaSpace l) = l := by
  induction l with
  | nil => rfl
  | cons a rest ih =>
    cases rest with
    | nil =>
      have ha := h a (List.mem_cons_self _ _)
      exact parseAddresses_single ha.1 ha.2.1 ha.2.2
    | cons b rest' =>
      have ha := h a (List.mem_cons_self _ _)
      have hj : joinCommaSpace (a :: b :: rest') =
          a ++ ',' :: ' ' :: joinCommaSpace (b :: rest') := rfl
      rw [hj, parseAddresses_append_comma, parseAddresses_cons_space,
        parseAddresses_single ha.1 ha.2.1 ha.2.2,
        ih (fun x hx => h x (List.mem_cons_of_mem _ hx))]
      rfl

/-- The re-parsed recipient list is the envelope recipients, duplicated once
when a `cc` header is present; header contents never enter it. -/
theorem recipientsOf_eq (envRcpt : List JStr) (pm : ParsedMail)
    (h : ∀ a ∈ envRcpt, ',' ∉ a ∧ trimSpaces a = a ∧ a ≠ []) :
    recipientsOf envRcpt pm =
      envRcpt ++ (if pm.ccHdr.isSome then envRcpt else []) := by
  have hjoin := parseAddresses_join envRcpt h
  obtain ⟨tH, cH, bH⟩ := pm
  cases cH with
  | none =>
    cases bH with
    | none => simpa [recipientsOf] using hjoin
    | some b0 =>
      have he : recipientsOf envRcpt ⟨tH, none, some b0⟩ =
          parseAddresses (joinCommaSpace envRcpt ++ [',']) := by
        simp [recipientsOf]
      rw [he, parseAddresses_append_comma_nil, hjoin]
      simp
  | some c0 =>
    cases bH with
    | none =>
      have he : recipientsOf envRcpt ⟨tH, some c0, none⟩ =
          parseAddresses (joinCommaSpace envRcpt ++ ',' :: joinCommaSpace envRcpt) := by
        simp [recipientsOf]
      rw [he, parseAddresses_append_comma, hjoin]
      simp
    | some b0 =>
      have he : recipientsOf envRcpt ⟨tH, some c0, some b0⟩ =
          parseAddresses
            ((joinCommaSpace envRcpt ++ ',' :: joinCommaSpace envRcpt) ++ [',']) := by
        simp [recipientsOf]
      rw [he, parseAddresses_append_comma_nil, parseAddresses_append_comma, hjoin]
      simp

theorem relayLoop_failed_map_fst (attempt : JStr → Except JStr Unit) (ks : List JStr) :
    ((relayLoop attempt ks).failed).map Prod.fst =
      ks.filter (fun d => !exOk (attempt d)) := by
  induction ks with
  | nil => rfl
  | cons d ds ih =>
    cases h : attempt d with
    | ok v => simp [relayLoop, h, List.filter_cons, exOk, ih]
    | error e => simp [relayLoop, h, List.filter_cons, exOk, ih]

theorem relayLoop_length (attempt : JStr → Except JStr Unit) (ks : List JStr) :
    (relayLoop attempt ks).success.length + (relayLoop attempt ks).failed.length =
      ks.length := by
  induction ks with
  | nil => rfl
  | cons d ds ih =>
    cases h : attempt d with
    | ok v =>
      simp only [relayLoop, h, List.length_cons]
      omega
    | error e =>
      simp only [relayLoop, h, List.length_cons]
      omega

theorem relayKeys_ne_nil {rs : List JStr} (h : rs ≠ []) : relayKeys rs ≠ [] := by
  cases rs with
  | nil => exact absurd rfl h
  | cons r rs' =>
    intro hk
    have hperm := jsOwnKeys_perm ((recipientGroups (r :: rs')).map Prod.fst)
    have hlen : ((recipientGroups (r :: rs')).map Prod.fst).length = 0 := by
      rw [← hperm.length_eq]
      exact congrArg List.length hk
    have hkeys : (recipientGroups (r :: rs')).map Prod.fst = [] :=
      List.length_eq_zero.mp hlen
    rw [recipientGroups_keys] at hkeys
    simp [firstSeen, firstSeenAux] at hkeys

/-- The first `@`-free prefix decomposition of an address containing `@`. -/
theorem first_at_split {l : JStr} (h : '@' ∈ l) :
    ∃ pre post : JStr, l = pre ++ '@' :: post ∧ '@' ∉ pre := by
  induction l with
  | nil => simp at h
  | cons c cs ih =>
    by_cases hc : c = '@'
    · exact ⟨[], cs, by rw [hc]; rfl, by simp⟩
    · have h' : '@' ∈ cs := by
        rcases List.mem_cons.mp h with h | h
        · exact absurd h.symm hc
        · exact h
      obtain ⟨p, q, hpq, hp⟩ := ih h'
      exact ⟨c :: p, q, by rw [hpq]; rfl, by
        simp only [List.mem_cons, not_or]
        exact ⟨fun hh => hc hh.symm, hp⟩⟩

theorem splitOnChar_headD (sep : Char) (l : JStr) :
    (splitOnChar sep l).headD [] = l.takeWhile (fun c => c ≠ sep) := by
  induction l with
  | nil => rfl
  | cons c cs ih =>
    by_cases hc : c = sep
    · simp [splitOnChar, hc, List.takeWhile_cons]
    · cases hs : splitOnChar sep cs with
      | nil => exact absurd hs (splitOnChar_ne_nil sep cs)
      | cons r rs =>
        rw [hs] at ih
        simp only [List.headD_cons] at ih
        simp [splitOnChar, hc, hs, List.takeWhile_cons, ih]

/-- `recipientDomain` of a well-formed address: the segment between the first
`@` and the following `@` (or the end). -/
theorem recipientDomain_split {pre post : JStr} (hp : '@' ∉ pre) :
    recipientDomain (pre ++ '@' :: post) = post.takeWhile (fun c => c ≠ '@') := by
  unfold recipientDomain splitAtSecond
  rw [splitOnChar_append_sep, splitOnChar_no_sep hp]
  cases hs : splitOnChar '@' post with
  | nil => exact absurd hs (splitOnChar_ne_nil '@' post)
  | cons r rs =>
    have hh := splitOnChar_headD '@' post
    rw [hs] at hh
    simp only [List.headD_cons] at hh
    simp [hh]

theorem runRelay_success (world : JStr → DomainEnv) (rs : List JStr) :
    (runRelay world rs).success =
      (relayKeys rs).filter (fun d => exOk (attemptDomain d (world d))) :=
  relayLoop_success _ _

theorem runRelay_failed (world : JStr → DomainEnv) (rs : List JStr) :
    (runRelay world rs).failed =
      (relayKeys rs).filterMap (fun d =>
        match attemptDomain d (world d) with
        | .error e => some (d, e)
        | .ok _ => none) :=
  relayLoop_failed _ _

theorem runRelay_failed_map_fst (world : JStr → DomainEnv) (rs : List JStr) :
    ((runRelay world rs).failed).map Prod.fst =
      (relayKeys rs).filter (fun d => !exOk (attemptDomain d (world d))) :=
  relayLoop_failed_map_fst _ _

theorem runRelay_length (world : JStr → DomainEnv) (rs : List JStr) :
    (runRelay world rs).success.length + (runRelay world rs).failed.length =
      (relayKeys rs).length :=
  relayLoop_length _ _

/-- The per-domain envelopes actually handed to the transport (lines
209–215): `{from: from, to: domainRecipients.map(to => to.address)}`. -/
def deliveredEnvelopes (mailFrom : Option JStr) (envRcpt : List JStr)
    (pm : ParsedMail) : List (JStr × List JStr) :=
  (recipientGroups (recipientsOf envRcpt pm)).map
    (fun kg => (envelopeFrom mailFrom, kg.2))

/-- The spec's reading of sender validation (§4.1/§4.2): the domain is
everything after the first `@`. -/
def specAfterFirstAt : JStr → Option JStr
  | [] => none
  | c :: cs => if c = '@' then some cs else specAfterFirstAt cs

theorem specAfterFirstAt_no_at {l : JStr} (h : '@' ∉ l) :
    specAfterFirstAt l = none := by
  induction l with
  | nil => rfl
  | cons c cs ih =>
    simp only [List.mem_cons, not_or] at h
    have hc : ¬ c = '@' := fun hh => h.1 hh.symm
    simp [specAfterFirstAt, hc, ih h.2]

theorem specAfterFirstAt_append {pre post : JStr} (h : '@' ∉ pre) :
    specAfterFirstAt (pre ++ '@' :: post) = some post := by
  induction pre with
  | nil => simp [specAfterFirstAt]
  | cons c cs ih =>
    simp only [List.mem_cons, not_or] at h
    have hc : ¬ c = '@' := fun hh => h.1 hh.symm
    simp only [List.cons_append, specAfterFirstAt, hc, if_false]
    exact ih h.2

/-! ### Concrete environments used by witnesses and counterexamples -/

/-- MX lookup rejects; the fallback transport accepts. -/
def fallbackOkWorld : JStr → DomainEnv :=
  fun _ => ⟨Except.error (), fun _ => Except.ok ()⟩

/-- Every transport submission fails. -/
def failWorld : JStr → DomainEnv :=
  fun _ => ⟨Except.error (), fun _ => Except.error "boom".toList⟩

/-- Delivery to `y.com` fails, every other domain succeeds. -/
def mixedWorld : JStr → DomainEnv :=
  fun d =>
    if d = "y.com".toList then ⟨Except.error (), fun _ => Except.error "refused".toList⟩
    else ⟨Except.error (), fun _ => Except.ok ()⟩

def envA : DomainEnv :=
  ⟨Except.ok [⟨"m1".toList, 10⟩, ⟨"m2".toList, 20⟩], fun _ => Except.ok ()⟩

def envB : DomainEnv :=
  ⟨Except.ok [⟨"m1".toList, 10⟩, ⟨"m9".toList, 99⟩], fun _ => Except.ok ()⟩

def pmWithCc : ParsedMail := ⟨some [], some ["spoof@evil.com".toList], none⟩

/-! ## Claims -/

/-- Claim C1: for every completed relay of one message (at least one
recipient), the terminal SMTP response is determined solely by the
per-domain outcomes: all domains succeeded accepts the session; all failed
rejects with a "Delivery failed to all N domains" error where N is the exact
failed-domain count; a mixed outcome rejects with a "Partial delivery: S
succeeded, F failed" error where S and F are the exact success and failure
counts. -/
theorem C1_terminal_response (world : JStr → DomainEnv) (rs : List JStr)
    (hrs : rs ≠ []) :
    ((∀ d ∈ relayKeys rs, exOk (attemptDomain d (world d)) = true) →
      terminalResponse world rs = none) ∧
    ((∀ d ∈ relayKeys rs, exOk (attemptDomain d (world d)) = false) →
      terminalResponse world rs =
        some (totalFailMsg (runRelay world rs).failed.length) ∧
      (runRelay world rs).failed.length = (relayKeys rs).length) ∧
    ((∃ d ∈ relayKeys rs, exOk (attemptDomain d (world d)) = true) →
      (∃ d ∈ relayKeys rs, exOk (attemptDomain d (world d)) = false) →
      terminalResponse world rs =
        some (partialMsg (runRelay world rs).success.length
          (runRelay world rs).failed.length) ∧
      (runRelay world rs).success.length =
        (relayKeys rs).countP (fun d => exOk (attemptDomain d (world d))) ∧
      (runRelay world rs).failed.length =
        (relayKeys rs).countP (fun d => !exOk (attemptDomain d (world d)))) := by
  refine ⟨?_, ?_, ?_⟩
  · intro hall
    have hmap : ((runRelay world rs).failed).map Prod.fst = [] := by
      rw [runRelay_failed_map_fst]
      refine List.filter_eq_nil_iff.mpr ?_
      intro d hd
      simp [hall d hd]
    have hfailed : (runRelay world rs).failed = [] := List.map_eq_nil_iff.mp hmap
    simp [terminalResponse, sessionResponse, hfailed]
  · intro hall
    have hsucc : (runRelay world rs).success = [] := by
      rw [runRelay_success]
      refine List.filter_eq_nil_iff.mpr ?_
      intro d hd
      simp [hall d hd]
    have hlen := runRelay_length world rs
    rw [hsucc] at hlen
    simp only [List.length_nil, Nat.zero_add] at hlen
    have hkpos : 0 < (relayKeys rs).length :=
      List.length_pos.mpr (relayKeys_ne_nil hrs)
    have hfpos : 0 < (runRelay world rs).failed.length := by omega
    constructor
    · simp only [terminalResponse, sessionResponse, hsucc, List.length_nil]
      rw [if_pos hfpos, if_neg (by omega)]
    · exact hlen
  · intro h1 h2
    obtain ⟨d1, hd1, hok1⟩ := h1
    obtain ⟨d2, hd2, hok2⟩ := h2
    have hs : d1 ∈ (runRelay world rs).success := by
      rw [runRelay_success]
      exact List.mem_filter.mpr ⟨hd1, by simp [hok1]⟩
    have hspos : 0 < (runRelay world rs).success.length :=
      List.length_pos.mpr (List.ne_nil_of_mem hs)
    have hf : d2 ∈ ((runRelay world rs).failed).map Prod.fst := by
      rw [runRelay_failed_map_fst]
      exact List.mem_filter.mpr ⟨hd2, by simp [hok2]⟩
    have hfpos : 0 < (runRelay world rs).failed.length := by
      have hpos := List.length_pos.mpr (List.ne_nil_of_mem hf)
      simpa using hpos
    refine ⟨?_, ?_, ?_⟩
    · simp only [terminalResponse, sessionResponse]
      rw [if_pos hfpos, if_pos hspos]
    · rw [runRelay_success, ← List.countP_eq_length_filter]
    · have hlm : ((runRelay world rs).failed).length =
          (((runRelay world rs).failed).map Prod.fst).length :=
        (List.length_map _ _).symm
      rw [hlm, runRelay_failed_map_fst, ← List.countP_eq_length_filter]

theorem C1_terminal_response_witness :
    terminalResponse mixedWorld ["a@x.com".toList, "b@y.com".toList] =
      some (partialMsg 1 1) := by
  have h := (C1_terminal_response mixedWorld ["a@x.com".toList, "b@y.com".toList]
    (by decide)).2.2 (by decide) (by decide)
  rw [h.1]
  rfl

/-- Claim C2 counterexample: an exception raised during MX resolution is not
recorded as a failure outcome for the domain — the inner `.catch` replaces it
with the fallback target, and when the fallback transport accepts, the
domain ends up in the success list with an empty failure list. -/
theorem C2_counterexample :
    (runRelay fallbackOkWorld ["a@x.com".toList]).failed = [] ∧
    (runRelay fallbackOkWorld ["a@x.com".toList]).success = ["x.com".toList] ∧
    (fallbackOkWorld "x.com".toList).mxResult = Except.error () := by
  refine ⟨?_, ?_, rfl⟩ <;> rfl

/-- Claim C2 amended: exceptions raised in the transport/submission phase of
a domain's delivery attempt are caught at the attempt boundary and recorded
as that domain's failure carrying the error's description; they never
propagate, every domain of the message is still visited and lands in exactly
one outcome list; MX-resolution exceptions, by contrast, are absorbed inside
the attempt by the direct-to-domain fallback target rather than recorded. -/
theorem C2_attempt_boundary (world : JStr → DomainEnv) (rs : List JStr) :
    (runRelay world rs).failed =
      (relayKeys rs).filterMap (fun d =>
        match attemptDomain d (world d) with
        | .error e => some (d, e)
        | .ok _ => none) ∧
    (runRelay world rs).success =
      (relayKeys rs).filter (fun d => exOk (attemptDomain d (world d))) ∧
    (∀ d ∈ relayKeys rs,
      d ∈ (runRelay world rs).success ∨
        d ∈ ((runRelay world rs).failed).map Prod.fst) ∧
    (∀ (d : JStr) (send : JStr → Except JStr Unit),
      attemptDomain d ⟨Except.error (), send⟩ = send d) := by
  refine ⟨runRelay_failed world rs, runRelay_success world rs, ?_, fun d send => rfl⟩
  intro d hd
  cases hok : exOk (attemptDomain d (world d)) with
  | true =>
    left
    rw [runRelay_success]
    exact List.mem_filter.mpr ⟨hd, by simp [hok]⟩
  | false =>
    right
    rw [runRelay_failed_map_fst]
    exact List.mem_filter.mpr ⟨hd, by simp [hok]⟩

theorem C2_attempt_boundary_witness :
    (runRelay failWorld ["a@x.com".toList]).failed =
      [("x.com".toList, "boom".toList)] := by
  rw [(C2_attempt_boundary failWorld ["a@x.com".toList]).1]
  rfl

/-- Claim C3: for every inbound submission (with well-formed envelope
recipient strings), the envelope sender and the set of recipients actually
delivered to come exclusively from the SMTP session envelope; the parsed
message's to/cc/bcc address headers never add to or remove from the
delivered recipient set. -/
theorem C3_envelope_only (mailFrom : Option JStr) (envRcpt : List JStr)
    (pm : ParsedMail)
    (h : ∀ a ∈ envRcpt, ',' ∉ a ∧ trimSpaces a = a ∧ a ≠ []) :
    (∀ e ∈ deliveredEnvelopes mailFrom envRcpt pm, e.1 = envelopeFrom mailFrom) ∧
    (∀ x, (∃ e ∈ deliveredEnvelopes mailFrom envRcpt pm, x ∈ e.2) ↔ x ∈ envRcpt) := by
  constructor
  · intro e he
    obtain ⟨kg, _, rfl⟩ := List.mem_map.mp he
    rfl
  · intro x
    have hgrp : (∃ e ∈ deliveredEnvelopes mailFrom envRcpt pm, x ∈ e.2) ↔
        ∃ kg ∈ recipientGroups (recipientsOf envRcpt pm), x ∈ kg.2 := by
      constructor
      · rintro ⟨e, he, hx⟩
        obtain ⟨kg, hkg, rfl⟩ := List.mem_map.mp he
        exact ⟨kg, hkg, hx⟩
      · rintro ⟨kg, hkg, hx⟩
        exact ⟨(envelopeFrom mailFrom, kg.2), List.mem_map_of_mem _ hkg, hx⟩
    rw [hgrp, mem_some_group_iff, recipientsOf_eq envRcpt pm h]
    by_cases hcc : pm.ccHdr.isSome <;> simp [hcc]

theorem C3_envelope_only_witness :
    ∃ e ∈ deliveredEnvelopes (some "s@example.com".toList) ["a@x.com".toList]
      pmWithCc, "a@x.com".toList ∈ e.2 :=
  ((C3_envelope_only (some "s@example.com".toList) ["a@x.com".toList] pmWithCc
    (by decide)).2 "a@x.com".toList).mpr (by decide)

/-- Claim C4 counterexample: the observable key order of the group record is
JS own-property-key order, not first-seen address order — with recipient
domains `foo.com` then `2`, `Object.keys` of the record (and any other
observation of it) yields `2`, `foo.com`, although the first-seen order is
`foo.com`, `2`. -/
theorem C4_counterexample :
    (recipientGroups ["a@foo.com".toList, "b@2".toList]).map Prod.fst =
      ["foo.com".toList, "2".toList] ∧
    jsOwnKeys ((recipientGroups ["a@foo.com".toList, "b@2".toList]).map Prod.fst) =
      ["2".toList, "foo.com".toList] ∧
    firstSeen (["a@foo.com".toList, "b@2".toList].map recipientDomain) =
      ["foo.com".toList, "2".toList] ∧
    (["2".toList, "foo.com".toList] : List JStr) ≠ ["foo.com".toList, "2".toList] := by
  refine ⟨by rfl, by rfl, by rfl, by decide⟩

/-- Claim C4 amended: Group produces a partition — every input recipient
appears in exactly one group with its full input multiplicity (duplicates
preserved as duplicate entries), addresses within a group keep input order,
and re-running Group on the same input yields the identical result (the
canonical-form equation determines the record completely); the keys, stored
internally at first occurrence, observably enumerate in JS own-property-key
order: canonical-integer-string domains first in ascending numeric order,
then the remaining domains in first-seen address order (which is exactly
first-seen order whenever no recipient domain is a canonical integer
string). -/
theorem C4_grouping_partition (rs : List JStr) :
    jsOwnKeys ((recipientGroups rs).map Prod.fst) =
      jsOwnKeys (firstSeen (rs.map recipientDomain)) ∧
    recipientGroups rs =
      (firstSeen (rs.map recipientDomain)).map
        (fun k => (k, rs.filter (fun r => recipientDomain r = k))) ∧
    (∀ x ∈ rs, ∃ g, (recipientDomain x, g) ∈ recipientGroups rs ∧ x ∈ g ∧
      g.count x = rs.count x ∧
      ∀ k' g', (k', g') ∈ recipientGroups rs → x ∈ g' →
        k' = recipientDomain x ∧ g' = g) := by
  refine ⟨congrArg jsOwnKeys (recipientGroups_keys rs), recipientGroups_canonical rs, ?_⟩
  intro x hx
  refine ⟨rs.filter (fun r => recipientDomain r = recipientDomain x), ?_, ?_, ?_, ?_⟩
  · exact (mem_recipientGroups_iff rs _ _).mpr ⟨List.mem_map_of_mem _ hx, rfl⟩
  · simp [List.mem_filter, hx]
  · exact List.count_filter (by simp)
  · intro k' g' hkg' hxg'
    have hspec := (mem_recipientGroups_iff rs k' g').mp hkg'
    have hdom : recipientDomain x = k' := by
      rw [hspec.2] at hxg'
      have := (List.mem_filter.mp hxg').2
      simpa using this
    exact ⟨hdom.symm, by rw [hspec.2, hdom]⟩

theorem C4_grouping_partition_witness :
    recipientGroups
        ["a@x.com".toList, "b@y.com".toList, "a@x.com".toList, "c@x.com".toList] =
      [("x.com".toList, ["a@x.com".toList, "a@x.com".toList, "c@x.com".toList]),
       ("y.com".toList, ["b@y.com".toList])] := by
  rw [(C4_grouping_partition
    ["a@x.com".toList, "b@y.com".toList, "a@x.com".toList, "c@x.com".toList]).2.1]
  rfl

/-- Claim C5 counterexample: no lower-casing happens — recipients whose
domains differ only in letter case land in different groups, and the key set
is not the set of distinct lower-cased domains. -/
theorem C5_counterexample :
    (recipientGroups ["a@A.com".toList, "b@a.com".toList]).map Prod.fst =
      ["A.com".toList, "a.com".toList] ∧
    firstSeen ((["a@A.com".toList, "b@a.com".toList].map recipientDomain).map
      (fun d => d.map Char.toLower)) = ["a.com".toList] ∧
    ¬ ∃ kg ∈ recipientGroups ["a@A.com".toList, "b@a.com".toList],
        "a@A.com".toList ∈ kg.2 ∧ "b@a.com".toList ∈ kg.2 := by
  refine ⟨by rfl, by rfl, ?_⟩
  decide

/-- Claim C5 amended: group keys are exactly the distinct recipient domains
as extracted, compared case-sensitively; two recipients share a group iff
their extracted domains are equal as strings (case included). -/
theorem C5_keys_case_sensitive (rs : List JStr) :
    (∀ d, d ∈ (recipientGroups rs).map Prod.fst ↔ ∃ r ∈ rs, recipientDomain r = d) ∧
    (∀ x y, x ∈ rs → y ∈ rs →
      ((∃ kg ∈ recipientGroups rs, x ∈ kg.2 ∧ y ∈ kg.2) ↔
        recipientDomain x = recipientDomain y)) := by
  constructor
  · intro d
    rw [recipientGroups_keys]
    unfold firstSeen
    rw [mem_firstSeenAux]
    simp [List.mem_map]
  · intro x y hx hy
    constructor
    · rintro ⟨⟨k, g⟩, hkg, hxg, hyg⟩
      have hspec := (mem_recipientGroups_iff rs k g).mp hkg
      rw [hspec.2] at hxg hyg
      have h1 := (List.mem_filter.mp hxg).2
      have h2 := (List.mem_filter.mp hyg).2
      simp only [decide_eq_true_eq] at h1 h2
      rw [h1, h2]
    · intro hdom
      refine ⟨(recipientDomain x, rs.filter (fun r => recipientDomain r = recipientDomain x)),
        (mem_recipientGroups_iff rs _ _).mpr ⟨List.mem_map_of_mem _ hx, rfl⟩, ?_, ?_⟩
      · simp [List.mem_filter, hx]
      · simp [List.mem_filter, hy, hdom]

theorem C5_keys_case_sensitive_witness :
    "x.com".toList ∈
      (recipientGroups ["a@x.com".toList, "b@y.com".toList]).map Prod.fst :=
  ((C5_keys_case_sensitive ["a@x.com".toList, "b@y.com".toList]).1
    "x.com".toList).mpr ⟨"a@x.com".toList, by decide, by decide⟩

/-- Claim C6: the route resolver returns, on MX lookup success, the targets
sorted ascending by priority with ties keeping DNS response order (stable
sort), and on any resolution failure exactly one synthetic target
`{host: domain, priority: 0}`; only the first target is consumed by the
delivery attempt. -/
theorem C6_route_resolver (domain : JStr) :
    (∀ e : Unit, resolveTargets domain (Except.error e) = [⟨domain, 0⟩]) ∧
    (∀ l : List MxRecord,
      (resolveTargets domain (Except.ok l)).Pairwise
        (fun a b => a.priority ≤ b.priority) ∧
      ∀ p : Nat,
        (resolveTargets domain (Except.ok l)).filter (fun m => m.priority = p) =
          l.filter (fun m => m.priority = p)) ∧
    (∀ env₁ env₂ : DomainEnv, env₁.send = env₂.send →
      (resolveTargets domain env₁.mxResult).head? =
        (resolveTargets domain env₂.mxResult).head? →
      attemptDomain domain env₁ = attemptDomain domain env₂) := by
  refine ⟨fun e => rfl, fun l => ⟨sortMx_sorted l, fun p => sortMx_filter l p⟩, ?_⟩
  intro env₁ env₂ hsend hhead
  unfold attemptDomain
  rw [hhead, hsend]

theorem C6_route_resolver_witness :
    attemptDomain "x.com".toList envA = attemptDomain "x.com".toList envB ∧
    resolveTargets "x.com".toList (Except.error ()) = [⟨"x.com".toList, 0⟩] :=
  ⟨(C6_route_resolver "x.com".toList).2.2 envA envB rfl (by decide),
   (C6_route_resolver "x.com".toList).1 ()⟩

/-- Claim C7 counterexample: for an address containing a second `@`, the code
compares the segment between the two `@`s (the JS `split('@')[1]`) rather
than the substring after the first `@`, so `user@example.com@evil` is
accepted for configured domain `example.com` although the substring after
the `@` is not equal to it. -/
theorem C7_counterexample :
    validateSender "example.com".toList "user@example.com@evil".toList = true ∧
    specAfterFirstAt "user@example.com@evil".toList =
      some "example.com@evil".toList ∧
    "example.com@evil".toList ≠ "example.com".toList := by
  refine ⟨by rfl, by rfl, by decide⟩

/-- Claim C7 amended: ValidateSender accepts iff the second component of
splitting the address on `@` equals the configured domain case-sensitively;
for addresses containing at most one `@` this coincides with the claim's
"substring after the `@`" rule (so `user@wrong.com` is rejected and
`user@example.com` accepted for configured domain `example.com`). -/
theorem C7_sender_validation (cfgDomain addr : JStr) (h : addr.count '@' ≤ 1) :
    validateSender cfgDomain addr = true ↔ specAfterFirstAt addr = some cfgDomain := by
  by_cases hmem : '@' ∈ addr
  · obtain ⟨pre, post, rfl, hpre⟩ := first_at_split hmem
    have hcnt0 : pre.count '@' = 0 := List.count_eq_zero.mpr hpre
    have hcount : (pre ++ '@' :: post).count '@' = post.count '@' + 1 := by
      rw [List.count_append, hcnt0]
      simp
    have hpost : '@' ∉ post := by
      rw [hcount] at h
      exact List.count_eq_zero.mp (by omega)
    unfold validateSender splitAtSecond
    rw [splitOnChar_append_sep, splitOnChar_no_sep hpre, splitOnChar_no_sep hpost,
      specAfterFirstAt_append hpre]
    simp
  · unfold validateSender splitAtSecond
    rw [splitOnChar_no_sep hmem, specAfterFirstAt_no_at hmem]
    simp

theorem C7_sender_validation_witness :
    validateSender "example.com".toList "user@example.com".toList = true ∧
    ¬ validateSender "example.com".toList "user@wrong.com".toList = true :=
  ⟨(C7_sender_validation "example.com".toList "user@example.com".toList
      (by decide)).mpr (by decide),
   fun hacc =>
     absurd ((C7_sender_validation "example.com".toList "user@wrong.com".toList
       (by decide)).mp hacc) (by decide)⟩

/-- Claim C8 counterexample: an address with no `@` does not yield the
empty-string domain — the JS `split('@')[1]` is `undefined` and the object
key it becomes is the literal string "undefined"; moreover for a multi-`@`
address the result is the segment between the first two `@`s, not everything
after the first `@`. -/
theorem C8_counterexample :
    recipientDomain "abc".toList = "undefined".toList ∧
    recipientDomain "abc".toList ≠ [] ∧
    recipientDomain "u@a@b".toList = "a".toList ∧
    recipientDomain "u@a@b".toList ≠ "a@b".toList := by
  refine ⟨by rfl, by decide, by rfl, by decide⟩

/-- Claim C8 amended: an address with no `@` yields the literal domain key
"undefined" (JS coercion of the undefined split component used as an object
key), which still forms a degenerate recipient group rather than being
rejected as an error; for an address with an `@`, the domain is the segment
between the first `@` and the next `@` (or the end). -/
theorem C8_domain_of (addr : JStr) (h : '@' ∉ addr) :
    recipientDomain addr = "undefined".toList ∧
    recipientGroups [addr] = [("undefined".toList, [addr])] ∧
    (∀ pre post : JStr, '@' ∉ pre →
      recipientDomain (pre ++ '@' :: post) = post.takeWhile (fun c => c ≠ '@')) := by
  have h1 : recipientDomain addr = "undefined".toList := by
    unfold recipientDomain splitAtSecond
    rw [splitOnChar_no_sep h]
    rfl
  refine ⟨h1, ?_, fun pre post hp => recipientDomain_split hp⟩
  show pushIntoGroup [] (recipientDomain addr) addr = _
  rw [h1]
  rfl

theorem C8_domain_of_witness :
    recipientDomain "abc".toList = "undefined".toList ∧
    recipientGroups ["abc".toList] = [("undefined".toList, ["abc".toList])] ∧
    recipientDomain "user@wrong.com".toList = "wrong.com".toList := by
  have h := C8_domain_of "abc".toList (by decide)
  refine ⟨h.1, h.2.1, ?_⟩
  have h3 := h.2.2 "user".toList "wrong.com".toList (by decide)
  calc recipientDomain "user@wrong.com".toList
      = recipientDomain ("user".toList ++ '@' :: "wrong.com".toList) := rfl
    _ = "wrong.com".toList.takeWhile (fun c => c ≠ '@') := h3
    _ = "wrong.com".toList := by decide

/-- Claim C9: for every completed relay invocation, the success-domain set
and the failure-domain set are disjoint and their union equals the
RecipientGroup key set; the outcome count equals the key count and the keys
are duplicate-free, so each group yields exactly one DomainOutcome. -/
theorem C9_outcome_partition (world : JStr → DomainEnv) (rs : List JStr) :
    ((runRelay world rs).success.length + (runRelay world rs).failed.length =
      (relayKeys rs).length) ∧
    (∀ d, ¬ (d ∈ (runRelay world rs).success ∧
      d ∈ ((runRelay world rs).failed).map Prod.fst)) ∧
    (∀ d, (d ∈ (runRelay world rs).success ∨
        d ∈ ((runRelay world rs).failed).map Prod.fst) ↔
      d ∈ (recipientGroups rs).map Prod.fst) ∧
    (relayKeys rs).Nodup := by
  refine ⟨runRelay_length world rs, ?_, ?_, relayKeys_nodup rs⟩
  · rintro d ⟨hs, hf⟩
    rw [runRelay_success] at hs
    rw [runRelay_failed_map_fst] at hf
    have h1 := (List.mem_filter.mp hs).2
    have h2 := (List.mem_filter.mp hf).2
    simp [h1] at h2
  · intro d
    rw [runRelay_success, runRelay_failed_map_fst, ← mem_relayKeys]
    constructor
    · rintro (h | h) <;> exact (List.mem_filter.mp h).1
    · intro hd
      cases hok : exOk (attemptDomain d (world d)) with
      | true => exact Or.inl (List.mem_filter.mpr ⟨hd, by simp [hok]⟩)
      | false => exact Or.inr (List.mem_filter.mpr ⟨hd, by simp [hok]⟩)

theorem C9_outcome_partition_witness :
    (runRelay mixedWorld ["a@x.com".toList, "b@y.com".toList]).success.length +
        (runRelay mixedWorld ["a@x.com".toList, "b@y.com".toList]).failed.length =
      (relayKeys ["a@x.com".toList, "b@y.com".toList]).length :=
  (C9_outcome_partition mixedWorld ["a@x.com".toList, "b@y.com".toList]).1

/-- Claim C10 counterexample: the `for ... in` loop follows JS own-key
enumeration order, which puts canonical-integer domain keys first — with
recipient domains `zzz` then `1`, the attempts and the success list run in
order `1`, `zzz`, not in first-seen order `zzz`, `1`. -/
theorem C10_counterexample :
    relayKeys ["a@zzz".toList, "b@1".toList] = ["1".toList, "zzz".toList] ∧
    firstSeen (["a@zzz".toList, "b@1".toList].map recipientDomain) =
      ["zzz".toList, "1".toList] ∧
    (runRelay fallbackOkWorld ["a@zzz".toList, "b@1".toList]).success =
      ["1".toList, "zzz".toList] ∧
    (["1".toList, "zzz".toList] : List JStr) ≠ ["zzz".toList, "1".toList] := by
  refine ⟨by rfl, by rfl, by rfl, by decide⟩

/-- Claim C10 amended: the per-domain attempts run strictly sequentially in
the JS own-key enumeration order of the groups — canonical-integer-string
domains first in ascending numeric order, then the remaining domains in
first-seen order — and the success and failure lists each preserve that
enumeration order (for messages none of whose domains are canonical integer
strings this is exactly the first-seen order). -/
theorem C10_sequential_order (world : JStr → DomainEnv) (rs : List JStr) :
    relayKeys rs = jsOwnKeys (firstSeen (rs.map recipientDomain)) ∧
    (runRelay world rs).success =
      (relayKeys rs).filter (fun d => exOk (attemptDomain d (world d))) ∧
    ((runRelay world rs).failed).map Prod.fst =
      (relayKeys rs).filter (fun d => !exOk (attemptDomain d (world d))) := by
  refine ⟨?_, runRelay_success world rs, runRelay_failed_map_fst world rs⟩
  unfold relayKeys
  rw [recipientGroups_keys]

end TinkSES
